import Mathlib

/-!
Shallow embedding of the word-search engine of `src/word-search.py`
(the local fuzzy text-matching/ranking engine of the signbot repository).

Strings are modelled as `List Char` (Python `str`), floats as `ℚ` (the
scores manipulated by the engine are exact decimal constants and ratios
of small integers), and file contents as `Option (List Char)`
(`none` = missing file, i.e. `FileNotFoundError`).

Character-class predicates follow the ASCII semantics of the Python
operations used by `normalize_text` (`str.lower`, `str.strip`, the regex
classes `[^a-z0-9\s]` and `\s+`).  For non-ASCII input both the Python
code and this model end up replacing the character by a space (it is not
a lowercase letter, digit or ASCII whitespace), except for the handful
of non-ASCII letters whose Unicode lowercasing is ASCII; those are
outside the scope of this development.
-/

set_option maxRecDepth 100000

namespace SignBot

/-- ASCII whitespace, the characters matched by the Python class `\s` and
stripped by `str.strip()` (space, tab, newline, carriage return,
vertical tab, form feed). -/
def isSpaceChar (c : Char) : Bool :=
  c.toNat = 32 || c.toNat = 9 || c.toNat = 10 || c.toNat = 13 ||
    c.toNat = 11 || c.toNat = 12

/-- The characters kept by the regex substitution `[^a-z0-9\s] -> " "`
apart from whitespace: lowercase ASCII letters and digits. -/
def isWordChar (c : Char) : Bool :=
  (97 ≤ c.toNat && c.toNat ≤ 122) || (48 ≤ c.toNat && c.toNat ≤ 57)

/-- Python str.lower on one character (ASCII range, see the module comment). -/
def lowerChar (c : Char) : Char :=
  if 65 ≤ c.toNat && c.toNat ≤ 90 then Char.ofNat (c.toNat + 32) else c

/-- Remove trailing ASCII whitespace (the right half of `str.strip()`). -/
def stripRight : List Char → List Char
  | [] => []
  | c :: rest =>
    match stripRight rest with
    | [] => if isSpaceChar c then [] else [c]
    | x :: xs => c :: x :: xs

/-- Python `str.strip()`: drop leading and trailing whitespace. -/
def stripList (l : List Char) : List Char :=
  stripRight (l.dropWhile fun c => isSpaceChar c)

/-- The regex substitution `_WORD_CHARS_RE.sub(" ", s)`: every character
that is not a lowercase letter, digit or whitespace becomes a space. -/
def subNonWord (l : List Char) : List Char :=
  l.map fun c => if isWordChar c || isSpaceChar c then c else ' '

/-- The regex substitution `re.sub(r"\s+", " ", s)`: each maximal run of
whitespace characters becomes a single space. -/
def collapseWS : List Char → List Char
  | [] => []
  | [c] => [if isSpaceChar c then ' ' else c]
  | c :: d :: rest =>
    if isSpaceChar c && isSpaceChar d then collapseWS (d :: rest)
    else (if isSpaceChar c then ' ' else c) :: collapseWS (d :: rest)

/-- The function normalize_text of `src/word-search.py`: lowercase and strip, map
non-word characters to spaces, collapse whitespace runs and strip. -/
def normalize_text (s : List Char) : List Char :=
  stripList (collapseWS (subNonWord (stripList (s.map lowerChar))))

/-- Python `s.split(sep)` for a one-character separator: split into the
(possibly empty) pieces between occurrences of `sep`. -/
def splitOnChar (sep : Char) : List Char → List (List Char)
  | [] => [[]]
  | c :: rest =>
    match splitOnChar sep rest with
    | [] => [[]]
    | w :: ws => if c = sep then [] :: w :: ws else (c :: w) :: ws

/-- The function tokenize of `src/word-search.py`: normalize, split on single
spaces and drop the empty pieces. -/
def tokenize (s : List Char) : List (List Char) :=
  (splitOnChar ' ' (normalize_text s)).filter fun t => !t.isEmpty

/-!
The `similarity` function of `src/word-search.py` delegates to the Python
routine `difflib.SequenceMatcher(None, a, b).ratio()`.  `difflib` is standard
library, external to the repository; spec §4.1 pins down its contract:
the classic ratio `2·M / T` where `M` is the total number of matched
characters obtained by repeatedly taking the longest common contiguous
block (earliest position on ties) and recursing on the two remainders,
and `T` is the combined length.  That is what is embedded here; the
`autojunk` heuristic of `difflib` (which only changes the result when
the second string has at least 200 characters) is outside the contract
of §4.1 and is not modelled.
-/

/-- Length of the longest common prefix of two character lists. -/
def lcp : List Char → List Char → ℕ
  | a :: as, b :: bs => if a = b then lcp as bs + 1 else 0
  | _, _ => 0

/-- All candidate blocks `(i, j, k)`: a start position in each string
together with the length of the common contiguous run starting there. -/
def candBlocks (a b : List Char) : List (ℕ × ℕ × ℕ) :=
  (List.range (a.length + 1)).flatMap fun i =>
    (List.range (b.length + 1)).map fun j => (i, j, lcp (a.drop i) (b.drop j))

/-- The block finder of SequenceMatcher (find_longest_match): the longest common contiguous
block, the earliest one (smallest start in `a`, then in `b`) on ties;
`(0, 0, 0)` when the strings have no common character. -/
def findLongestMatch (a b : List Char) : ℕ × ℕ × ℕ :=
  (candBlocks a b).foldl (fun best c => if best.2.2 < c.2.2 then c else best) (0, 0, 0)

/-- Total size of the matching blocks (`get_matching_blocks`): take the
longest match, recurse on the parts before and after it.  The fuel
argument makes the recursion structural; `matchTotal` supplies more
fuel than the recursion depth can reach, so it never runs out. -/
def matchTotalF : ℕ → List Char → List Char → ℕ
  | 0, _, _ => 0
  | fuel + 1, a, b =>
    match findLongestMatch a b with
    | (i, j, k) =>
      if k = 0 then 0
      else
        matchTotalF fuel (a.take i) (b.take j) + k +
          matchTotalF fuel (a.drop (i + k)) (b.drop (j + k))

/-- Total number of matched characters between the two strings. -/
def matchTotal (a b : List Char) : ℕ :=
  matchTotalF (a.length + b.length + 1) a b

/-- The function similarity of `src/word-search.py`: `0` when either string is
empty, else the `SequenceMatcher` ratio `2·M / T`. -/
def similarity (a b : List Char) : ℚ :=
  if a.isEmpty || b.isEmpty then 0
  else (2 * matchTotal a b : ℚ) / (a.length + b.length)

/-- The dataclass Entry of `src/word-search.py`: one dictionary record. -/
structure Entry where
  source : List Char
  title : List Char
  url : List Char
deriving DecidableEq

/-- The derived `Entry.norm_title` property. -/
def Entry.norm_title (e : Entry) : List Char :=
  normalize_text e.title

/-- The dataclass RankedResult of `src/word-search.py`: one scored match. -/
structure RankedResult where
  entry : Entry
  score : ℚ
  reason : List Char
deriving DecidableEq

/-- Round `100·q` to an integer, ties to even: the rounding performed by
the Python fixed-point formatting `f"{q:.2f}"` (on the exact value; the
float detour of the source can differ only on values whose hundredths
digit is an exact tie, which the scores of the engine never are). -/
def roundCents (q : ℚ) : ℤ :=
  let x := q * 100
  let f := x.num.fdiv (x.den : ℤ)
  let r := x.num - f * (x.den : ℤ)
  if 2 * r < (x.den : ℤ) then f
  else if (x.den : ℤ) < 2 * r then f + 1
  else if f % 2 = 0 then f else f + 1

/-- The character of a decimal digit. -/
def digitChar (d : ℕ) : Char := Char.ofNat (48 + d)

/-- Decimal digits of `n`, most significant first (fuel-structural). -/
def natDigitsAux : ℕ → ℕ → List Char
  | 0, _ => []
  | fuel + 1, n =>
    if n < 10 then [digitChar n]
    else natDigitsAux fuel (n / 10) ++ [digitChar (n % 10)]

/-- Decimal representation of a natural number. -/
def natToChars (n : ℕ) : List Char := natDigitsAux (n + 1) n

/-- Digits of `n` cents with two decimal places. -/
def fmt2Nat (n : ℕ) : List Char :=
  natToChars (n / 100) ++ '.' ::
    (if n % 100 < 10 then '0' :: natToChars (n % 100) else natToChars (n % 100))

/-- The Python format `f"{q:.2f}"`: the value formatted with two decimal places. -/
def fmt2 (q : ℚ) : List Char :=
  let n := roundCents q
  if n < 0 then '-' :: fmt2Nat n.natAbs else fmt2Nat n.toNat

/-- Reason label of the exact-match tier. -/
def exactReason : List Char := "exact match".toList

/-- Reason label of the prefix-match tier. -/
def prefixReason : List Char := "prefix match".toList

/-- Reason label of the all-query-tokens tier. -/
def tokensReason : List Char := "all query tokens present".toList

/-- Reason label of the substring-match tier. -/
def substringReason : List Char := "substring match".toList

/-- Reason label of the similarity tier: `f"similarity {sim:.2f}"`. -/
def simReason (s : ℚ) : List Char := "similarity ".toList ++ fmt2 s

/-- The Python substring test `needle in hay` on strings: `needle` occurs
contiguously in `hay` (an empty `needle` occurs in everything). -/
def isSubstring (needle : List Char) : List Char → Bool
  | [] => needle.isEmpty
  | c :: rest => needle.isPrefixOf (c :: rest) || isSubstring needle rest

/-- The function rank_entry of `src/word-search.py`: score one entry against the
normalized query and its tokens, taking the first applicable tier. -/
def rank_entry (query_norm : List Char) (query_tokens : List (List Char))
    (entry : Entry) : Option RankedResult :=
  if entry.norm_title = [] then none
  else if 3 ≤ query_norm.length ∧ entry.norm_title.length ≤ 1 then none
  else if entry.norm_title = query_norm then some ⟨entry, 1.00, exactReason⟩
  else if query_norm.isPrefixOf entry.norm_title then some ⟨entry, 0.92, prefixReason⟩
  else if query_tokens ≠ [] ∧ ∀ t ∈ query_tokens, t ∈ tokenize entry.title then
    some ⟨entry, 0.88, tokensReason⟩
  else if isSubstring query_norm entry.norm_title then some ⟨entry, 0.75, substringReason⟩
  else if 0.72 ≤ similarity query_norm entry.norm_title then
    some ⟨entry, 0.50 + similarity query_norm entry.norm_title * 0.40,
      simReason (similarity query_norm entry.norm_title)⟩
  else none

/-- Python string comparison `a < b`: lexicographic by code points, a
proper prefix being smaller. -/
def strLtB : List Char → List Char → Bool
  | [], [] => false
  | [], _ :: _ => true
  | _ :: _, [] => false
  | a :: as, b :: bs =>
    if a.toNat < b.toNat then true
    else if b.toNat < a.toNat then false
    else strLtB as bs

/-- The sort key `lambda r: (r.score, r.entry.source)` of `search`. -/
def sortKey (r : RankedResult) : ℚ × List Char :=
  (r.score, r.entry.source)

/-- Python tuple comparison `x < y` on a `(score, source)` key. -/
def keyLtB (x y : ℚ × List Char) : Bool :=
  if x.1 < y.1 then true
  else if y.1 < x.1 then false
  else strLtB x.2 y.2

/-- Insert a result into a descending-sorted list, after any result
whose key ties with it (so that the overall sort is stable, as the Python
sort `list.sort(..., reverse=True)` is). -/
def insertDesc (r : RankedResult) : List RankedResult → List RankedResult
  | [] => [r]
  | x :: xs => if keyLtB (sortKey x) (sortKey r) then r :: x :: xs else x :: insertDesc r xs

/-- The sort `ranked.sort(key=lambda r: (r.score, r.entry.source), reverse=True)`:
the stable descending sort by composite key. -/
def sortRanked (l : List RankedResult) : List RankedResult :=
  l.foldl (fun acc r => insertDesc r acc) []

/-- The function search of `src/word-search.py`.  The entry universe produced by
`load_entries()` is passed explicitly (the source reloads it from the
two dictionary files on every call). -/
def search (query : List Char) (entries : List Entry) (limit : ℕ) (explain : Bool) :
    List RankedResult :=
  let query_norm := normalize_text query
  if query_norm = [] then []
  else
    let query_tokens := tokenize query_norm
    let ranked := entries.filterMap (rank_entry query_norm query_tokens)
    let sorted := sortRanked ranked
    let truncated := sorted.take limit
    if !explain then truncated else truncated

/-- Hexadecimal digit, lowercase. -/
def hexDigitChar (n : ℕ) : Char :=
  Char.ofNat (if n < 10 then 48 + n else 87 + n)

/-- One character of Python `repr` output for a string delimited by
`quote`: backslashes, quotes and control characters are escaped. -/
def escChar (quote : Char) (c : Char) : List Char :=
  if c = '\\' then ['\\', '\\']
  else if c = quote then ['\\', quote]
  else if c = '\n' then ['\\', 'n']
  else if c = '\r' then ['\\', 'r']
  else if c = '\t' then ['\\', 't']
  else if c.toNat < 32 || c.toNat = 127 then
    ['\\', 'x', hexDigitChar (c.toNat / 16 % 16), hexDigitChar (c.toNat % 16)]
  else [c]

/-- Python `repr` of a string (`f"{query!r}"`): single quotes, unless
the string contains a single quote but no double quote. -/
def pyRepr (s : List Char) : List Char :=
  let quote := if s.contains '\'' && !(s.contains '"') then '"' else '\''
  quote :: (s.map (escChar quote)).flatten ++ [quote]

/-- The join `"\n".join(lines)`. -/
def joinLines (ls : List (List Char)) : List Char :=
  List.intercalate ['\n'] ls

/-- The line `format_results` emits for one result. -/
def resultLine (include_reasons : Bool) (r : RankedResult) : List Char :=
  "- [".toList ++ r.entry.source ++ "] ".toList ++ r.entry.title ++ ": ".toList ++
    r.entry.url ++
    (if include_reasons then
      " (".toList ++ r.reason ++ ", score=".toList ++ fmt2 r.score ++ ")".toList
    else [])

/-- The single line emitted for an empty result list. -/
def noMatchesLine (query : List Char) : List Char :=
  "No matches found for ".toList ++ pyRepr query ++ ".".toList

/-- The header line echoing the query. -/
def headerLine (query : List Char) : List Char :=
  "Results for ".toList ++ pyRepr query ++ ":".toList

/-- The function format_results of `src/word-search.py`. -/
def format_results (query : List Char) (results : List RankedResult)
    (include_reasons : Bool) : List Char :=
  if results = [] then noMatchesLine query
  else joinLines (headerLine query :: results.map (resultLine include_reasons))

/-!
The dictionary loader.  `iter_jsonl` parses each line with the Python
function `json.loads` (standard library, external to the repository).  Modelled
from the spec: §6 describes the record store as "a line-delimited text
resource where each line is either blank or a single self-contained
structured-object record"; the JSON value type and parsing below render
`json.loads` for that resource (objects, arrays, strings with the
standard escapes, numbers, `true`/`false`/`null`, strict about
unescaped control characters in strings, last duplicate key wins). -/

/-- A parsed JSON value. -/
inductive Json where
  | null
  | bool (b : Bool)
  | num (q : ℚ)
  | str (s : List Char)
  | arr (elems : List Json)
  | obj (members : List (List Char × Json))

/-- Skip JSON insignificant whitespace. -/
def skipJsonWS : List Char → List Char
  | c :: rest =>
    if c.toNat = 32 || c.toNat = 9 || c.toNat = 10 || c.toNat = 13 then skipJsonWS rest
    else c :: rest
  | [] => []

/-- Value of a hexadecimal digit. -/
def hexVal (c : Char) : Option ℕ :=
  if 48 ≤ c.toNat ∧ c.toNat ≤ 57 then some (c.toNat - 48)
  else if 97 ≤ c.toNat ∧ c.toNat ≤ 102 then some (c.toNat - 87)
  else if 65 ≤ c.toNat ∧ c.toNat ≤ 70 then some (c.toNat - 55)
  else none

/-- Body of a JSON string after the opening quote: the decoded
characters and the input after the closing quote. -/
def parseStrBody : List Char → Option (List Char × List Char)
  | [] => none
  | '"' :: rest => some ([], rest)
  | '\\' :: e :: rest =>
    if e = 'u' then
      match rest with
      | h1 :: h2 :: h3 :: h4 :: r2 =>
        match hexVal h1, hexVal h2, hexVal h3, hexVal h4 with
        | some a, some b, some c, some d =>
          (parseStrBody r2).map fun p =>
            (Char.ofNat (((a * 16 + b) * 16 + c) * 16 + d) :: p.1, p.2)
        | _, _, _, _ => none
      | _ => none
    else
      match escapeChar e with
      | some c => (parseStrBody rest).map fun p => (c :: p.1, p.2)
      | none => none
  | c :: rest =>
    if c.toNat < 32 then none
    else (parseStrBody rest).map fun p => (c :: p.1, p.2)
where
  /-- The single-character JSON escapes. -/
  escapeChar : Char → Option Char
  | '"' => some '"'
  | '\\' => some '\\'
  | '/' => some '/'
  | 'b' => some (Char.ofNat 8)
  | 'f' => some (Char.ofNat 12)
  | 'n' => some '\n'
  | 'r' => some '\r'
  | 't' => some '\t'
  | _ => none

/-- ASCII digit. -/
def isDigitChar (c : Char) : Bool := 48 ≤ c.toNat && c.toNat ≤ 57

/-- Numeric value of a digit string. -/
def digitsToNat (ds : List Char) : ℕ :=
  ds.foldl (fun acc c => acc * 10 + (c.toNat - 48)) 0

/-- A JSON number (integer part, optional fraction, optional exponent)
as an exact rational, with the input that follows it. -/
def parseNum (s : List Char) : Option (ℚ × List Char) :=
  let signed := match s with
    | '-' :: r => (true, r)
    | _ => (false, s)
  let ds := signed.2.takeWhile isDigitChar
  let r1 := signed.2.dropWhile isDigitChar
  if ds = [] then none
  else if 2 ≤ ds.length ∧ ds.head? = some '0' then none
  else
    let fracRes : Option (ℕ × ℕ × List Char) :=
      match r1 with
      | '.' :: r2 =>
        let fs := r2.takeWhile isDigitChar
        if fs = [] then none
        else some (digitsToNat fs, fs.length, r2.dropWhile isDigitChar)
      | _ => some (0, 0, r1)
    match fracRes with
    | none => none
    | some (fv, fl, r3) =>
      let expRes : Option (Bool × ℕ × List Char) :=
        match r3 with
        | c :: r4 =>
          if c = 'e' ∨ c = 'E' then
            let signedE := match r4 with
              | '+' :: r5 => (false, r5)
              | '-' :: r5 => (true, r5)
              | _ => (false, r4)
            let es := signedE.2.takeWhile isDigitChar
            if es = [] then none
            else some (signedE.1, digitsToNat es, signedE.2.dropWhile isDigitChar)
          else some (false, 0, r3)
        | [] => some (false, 0, r3)
      match expRes with
      | none => none
      | some (eneg, ev, r6) =>
        let mant : ℤ := (if signed.1 then -1 else 1) * (digitsToNat ds * 10 ^ fl + fv)
        let q : ℚ :=
          if eneg then mkRat mant (10 ^ (fl + ev))
          else mkRat (mant * 10 ^ ev) (10 ^ fl)
        some (q, r6)

/-- What the recursive JSON reader is currently reading: a value, the
members of an object, or the elements of an array. -/
inductive PMode where
  | val
  | members (acc : List (List Char × Json))
  | elems (acc : List Json)

/-- The recursive JSON reader.  Structural on the fuel argument;
`json_loads` supplies more fuel than any input can consume. -/
def parseF : ℕ → PMode → List Char → Option (Json × List Char)
  | 0, _, _ => none
  | fuel + 1, PMode.val, s =>
    match skipJsonWS s with
    | [] => none
    | c :: rest =>
      if c = '{' then
        match skipJsonWS rest with
        | '}' :: r2 => some (Json.obj [], r2)
        | r2 => parseF fuel (PMode.members []) r2
      else if c = '[' then
        match skipJsonWS rest with
        | ']' :: r2 => some (Json.arr [], r2)
        | r2 => parseF fuel (PMode.elems []) r2
      else if c = '"' then
        (parseStrBody rest).map fun p => (Json.str p.1, p.2)
      else if c = 't' then
        match rest with
        | 'r' :: 'u' :: 'e' :: r2 => some (Json.bool true, r2)
        | _ => none
      else if c = 'f' then
        match rest with
        | 'a' :: 'l' :: 's' :: 'e' :: r2 => some (Json.bool false, r2)
        | _ => none
      else if c = 'n' then
        match rest with
        | 'u' :: 'l' :: 'l' :: r2 => some (Json.null, r2)
        | _ => none
      else
        (parseNum (c :: rest)).map fun p => (Json.num p.1, p.2)
  | fuel + 1, PMode.members acc, s =>
    match skipJsonWS s with
    | '"' :: rest =>
      match parseStrBody rest with
      | none => none
      | some (key, r1) =>
        match skipJsonWS r1 with
        | ':' :: r2 =>
          match parseF fuel PMode.val r2 with
          | none => none
          | some (v, r3) =>
            match skipJsonWS r3 with
            | ',' :: r4 => parseF fuel (PMode.members (acc ++ [(key, v)])) r4
            | '}' :: r4 => some (Json.obj (acc ++ [(key, v)]), r4)
            | _ => none
        | _ => none
    | _ => none
  | fuel + 1, PMode.elems acc, s =>
    match parseF fuel PMode.val s with
    | none => none
    | some (v, r1) =>
      match skipJsonWS r1 with
      | ',' :: r2 => parseF fuel (PMode.elems (acc ++ [v])) r2
      | ']' :: r2 => some (Json.arr (acc ++ [v]), r2)
      | _ => none

/-- The Python call `json.loads` on one line: the parsed value, or `none` for
a `json.JSONDecodeError` (including trailing garbage). -/
def json_loads (l : List Char) : Option Json :=
  match parseF (4 * l.length + 16) PMode.val l with
  | some (v, rest) => if skipJsonWS rest = [] then some v else none
  | none => none

/-- The function iter_jsonl of `src/word-search.py` on the content of one record
store (`none` = the file is missing): the parsed objects of the
non-blank, well-formed lines, in file order. -/
def iter_jsonl (content : Option (List Char)) : List Json :=
  match content with
  | none => []
  | some text =>
    (splitOnChar '\n' text).filterMap fun rawLine =>
      let line := stripList rawLine
      if line = [] then none
      else
        match json_loads line with
        | some (Json.obj kvs) => some (Json.obj kvs)
        | _ => none

/-- Python `dict.get` on a parsed JSON object (later duplicate keys
overwrite earlier ones, as in a Python `dict` built by insertion). -/
def dictGet (k : List Char) : Json → Option Json
  | Json.obj kvs => kvs.foldl (fun acc kv => if kv.1 = k then some kv.2 else acc) none
  | _ => none

/-- The body of the two loops of `load_entries`: keep a record only if
`title` and `url` are both strings and both truthy (non-empty). -/
def entryOfObj (src : List Char) (v : Json) : Option Entry :=
  match dictGet "title".toList v, dictGet "url".toList v with
  | some (Json.str t), some (Json.str u) =>
    if t ≠ [] ∧ u ≠ [] then some ⟨src, t, u⟩ else none
  | _, _ => none

/-- The function load_entries of `src/word-search.py`, over the contents of the
handspeak and lifeprint record stores. -/
def load_entries (handspeak lifeprint : Option (List Char)) : List Entry :=
  (iter_jsonl handspeak).filterMap (entryOfObj "handspeak".toList) ++
    (iter_jsonl lifeprint).filterMap (entryOfObj "lifeprint".toList)

/-- The priority rank of the tier that produced a result, recovered
from its reason label (0 = exact, 1 = prefix, 2 = all-tokens,
3 = substring, 4 = similarity). -/
def tierIndex (r : RankedResult) : ℕ :=
  if r.reason = exactReason then 0
  else if r.reason = prefixReason then 1
  else if r.reason = tokensReason then 2
  else if r.reason = substringReason then 3
  else 4

/-- The descending composite order a result list is claimed to be
sorted by: strictly higher scores first; among equal scores, the
lexicographically greater source tag first. -/
def resultOrder (a b : RankedResult) : Prop :=
  b.score < a.score ∨
    (b.score = a.score ∧
      (b.entry.source = a.entry.source ∨ strLtB b.entry.source a.entry.source = true))

/-- Modelled from the spec (§4.2, as amended): the Entry produced by
one line of a record store — skip the line when it is empty or pure
whitespace, when it does not parse as a JSON object, or when its
`title` or `url` is missing, not a string, or the empty string
(a whitespace-only string is accepted). -/
def specEntryOfLine (src : List Char) (rawLine : List Char) : Option Entry :=
  if stripList rawLine = [] then none
  else
    match json_loads (stripList rawLine) with
    | some (Json.obj kvs) =>
      match dictGet "title".toList (Json.obj kvs), dictGet "url".toList (Json.obj kvs) with
      | some (Json.str t), some (Json.str u) =>
        if t = [] ∨ u = [] then none else some ⟨src, t, u⟩
      | _, _ => none
    | _ => none

/-- Modelled from the spec (§4.2, as amended): the ordered sequence of
valid Entries of one record store, a missing file yielding none. -/
def loadSpecOne (src : List Char) (content : Option (List Char)) : List Entry :=
  match content with
  | none => []
  | some text => (splitOnChar '\n' text).filterMap (specEntryOfLine src)

/-- Modelled from the spec (§4.2, as amended): the full entry universe,
handspeak records followed by lifeprint records. -/
def loadSpec (handspeak lifeprint : Option (List Char)) : List Entry :=
  loadSpecOne "handspeak".toList handspeak ++ loadSpecOne "lifeprint".toList lifeprint

/-- No two adjacent characters of the list are both whitespace. -/
def noAdjSpace : List Char → Prop
  | c :: d :: rest => ¬(isSpaceChar c = true ∧ isSpaceChar d = true) ∧ noAdjSpace (d :: rest)
  | _ => True

/-! ## Properties of the normalizer -/

theorem isWordChar_not_space {c : Char} (h : isWordChar c = true) : isSpaceChar c = false := by
  simp only [isWordChar, Bool.or_eq_true, Bool.and_eq_true, decide_eq_true_eq] at h
  simp only [isSpaceChar, Bool.or_eq_false_iff, decide_eq_false_iff_not]
  omega

theorem noAdjSpace_tail {c : Char} {l : List Char} (h : noAdjSpace (c :: l)) : noAdjSpace l := by
  cases l with
  | nil => trivial
  | cons d rest => exact h.2

theorem noAdjSpace_cons {c : Char} {l : List Char}
    (hc : ∀ x, l.head? = some x → ¬(isSpaceChar c = true ∧ isSpaceChar x = true))
    (hl : noAdjSpace l) : noAdjSpace (c :: l) := by
  cases l with
  | nil => trivial
  | cons x xs => exact ⟨hc x rfl, hl⟩

theorem collapseWS_cons_cons (c d : Char) (rest : List Char) :
    collapseWS (c :: d :: rest) =
      if isSpaceChar c && isSpaceChar d then collapseWS (d :: rest)
      else (if isSpaceChar c then ' ' else c) :: collapseWS (d :: rest) := rfl

theorem collapseWS_head {d : Char} (rest : List Char) (hd : isSpaceChar d = false) :
    ∃ tl, collapseWS (d :: rest) = d :: tl := by
  cases rest with
  | nil => exact ⟨[], by simp [collapseWS, hd]⟩
  | cons e rest' =>
    refine ⟨collapseWS (e :: rest'), ?_⟩
    rw [show collapseWS (d :: e :: rest') =
        if isSpaceChar d && isSpaceChar e then collapseWS (e :: rest')
        else (if isSpaceChar d then ' ' else d) :: collapseWS (e :: rest') from rfl]
    simp [hd]

theorem collapseWS_noAdjSpace : ∀ l : List Char, noAdjSpace (collapseWS l)
  | [] => trivial
  | [_] => trivial
  | c :: d :: rest => by
    have ih := collapseWS_noAdjSpace (d :: rest)
    rw [collapseWS_cons_cons]
    by_cases hd : isSpaceChar d = true
    · by_cases hc : isSpaceChar c = true
      · simpa [hc, hd] using ih
      · rw [Bool.not_eq_true] at hc
        rw [if_neg (by simp [hc]), if_neg (by simp [hc])]
        exact noAdjSpace_cons (fun x _ h => by simp [hc] at h) ih
    · rw [Bool.not_eq_true] at hd
      obtain ⟨tl, htl⟩ := collapseWS_head rest hd
      rw [if_neg (by simp [hd]), htl]
      refine noAdjSpace_cons (fun x hx h => ?_) (htl ▸ ih)
      simp only [List.head?_cons, Option.some.injEq] at hx
      subst hx
      rw [hd] at h
      exact absurd h.2 (by simp)

theorem mem_subNonWord {c : Char} {l : List Char} (h : c ∈ subNonWord l) :
    isWordChar c = true ∨ isSpaceChar c = true := by
  simp only [subNonWord, List.mem_map] at h
  obtain ⟨d, _, hd⟩ := h
  split at hd
  · rename_i hcond
    subst hd
    simpa [Bool.or_eq_true] using hcond
  · subst hd
    right
    decide

theorem collapseWS_chars :
    ∀ l : List Char, (∀ c ∈ l, isWordChar c = true ∨ isSpaceChar c = true) →
      ∀ c ∈ collapseWS l, isWordChar c = true ∨ c = ' '
  | [], _, c, hc => by simp [collapseWS] at hc
  | [d], h, c, hc => by
    simp only [collapseWS, List.mem_singleton] at hc
    subst hc
    split
    · right; rfl
    · rename_i hd
      rcases h d (by simp) with hw | hs
      · left; exact hw
      · exact absurd hs hd
  | c0 :: d :: rest, h, c, hc => by
    have ih := collapseWS_chars (d :: rest)
      (fun x hx => h x (by simp only [List.mem_cons] at hx ⊢; tauto))
    rw [collapseWS_cons_cons] at hc
    split at hc
    · exact ih c hc
    · rcases List.mem_cons.mp hc with rfl | hmem
      · split
        · right; rfl
        · rename_i hc0
          rcases h c0 (by simp) with hw | hs
          · left; exact hw
          · exact absurd hs hc0
      · exact ih c hmem

theorem dropWhile_head?_false {p : Char → Bool} :
    ∀ (l : List Char) (x : Char), (l.dropWhile p).head? = some x → p x = false
  | [], x, h => by simp at h
  | c :: rest, x, h => by
    by_cases hc : p c = true
    · rw [List.dropWhile_cons] at h
      simp only [hc, if_true] at h
      exact dropWhile_head?_false rest x h
    · rw [Bool.not_eq_true] at hc
      rw [List.dropWhile_cons] at h
      simp only [hc, Bool.false_eq_true, if_false, List.head?_cons, Option.some.injEq] at h
      subst h
      exact hc

theorem mem_dropWhile {p : Char → Bool} :
    ∀ (l : List Char) (c : Char), c ∈ l.dropWhile p → c ∈ l
  | [], c, h => h
  | x :: rest, c, h => by
    rw [List.dropWhile_cons] at h
    split at h
    · exact List.mem_cons_of_mem x (mem_dropWhile rest c h)
    · exact h

theorem dropWhile_noAdjSpace {p : Char → Bool} :
    ∀ l : List Char, noAdjSpace l → noAdjSpace (l.dropWhile p)
  | [], h => h
  | c :: rest, h => by
    rw [List.dropWhile_cons]
    split
    · exact dropWhile_noAdjSpace rest (noAdjSpace_tail h)
    · exact h

theorem dropWhile_eq_self {p : Char → Bool} :
    ∀ l : List Char, (∀ c, l.head? = some c → p c = false) → l.dropWhile p = l
  | [], _ => rfl
  | c :: rest, h => by
    rw [List.dropWhile_cons]
    simp [h c rfl]

theorem stripRight_cons (x : Char) (rest : List Char) :
    stripRight (x :: rest) =
      match stripRight rest with
      | [] => if isSpaceChar x then [] else [x]
      | y :: ys => x :: y :: ys := rfl

theorem stripRight_head? :
    ∀ (l : List Char) (c : Char), (stripRight l).head? = some c → l.head? = some c
  | [], c, h => by simp [stripRight] at h
  | x :: rest, c, h => by
    rw [stripRight_cons] at h
    cases hsr : stripRight rest with
    | nil =>
      rw [hsr] at h
      by_cases hx : isSpaceChar x = true
      · simp [hx] at h
      · rw [Bool.not_eq_true] at hx
        simp only [hx, Bool.false_eq_true, if_false, List.head?_cons, Option.some.injEq] at h
        simpa using h
    | cons y ys =>
      rw [hsr] at h
      simpa using h

theorem stripRight_getLast? :
    ∀ (l : List Char) (c : Char), (stripRight l).getLast? = some c → isSpaceChar c = false
  | [], c, h => by simp [stripRight] at h
  | x :: rest, c, h => by
    rw [stripRight_cons] at h
    cases hsr : stripRight rest with
    | nil =>
      rw [hsr] at h
      by_cases hx : isSpaceChar x = true
      · simp [hx] at h
      · rw [Bool.not_eq_true] at hx
        simp only [hx, Bool.false_eq_true, if_false, List.getLast?_singleton,
          Option.some.injEq] at h
        subst h
        exact hx
    | cons y ys =>
      rw [hsr] at h
      rw [List.getLast?_cons_cons, ← hsr] at h
      exact stripRight_getLast? rest c h

theorem stripRight_noAdjSpace : ∀ l : List Char, noAdjSpace l → noAdjSpace (stripRight l)
  | [], h => h
  | x :: rest, h => by
    rw [stripRight_cons]
    cases hsr : stripRight rest with
    | nil =>
      by_cases hx : isSpaceChar x = true
      · simp only [hx, if_true]
        trivial
      · rw [Bool.not_eq_true] at hx
        simp only [hx, Bool.false_eq_true, if_false]
        trivial
    | cons y ys =>
      cases rest with
      | nil => simp [stripRight] at hsr
      | cons z zs =>
        have hy : (z :: zs).head? = some y := stripRight_head? (z :: zs) y (by rw [hsr]; rfl)
        simp only [List.head?_cons, Option.some.injEq] at hy
        subst hy
        refine ⟨h.1, ?_⟩
        rw [← hsr]
        exact stripRight_noAdjSpace _ h.2

theorem mem_stripRight : ∀ (l : List Char) (c : Char), c ∈ stripRight l → c ∈ l
  | [], c, h => h
  | x :: rest, c, h => by
    rw [stripRight_cons] at h
    cases hsr : stripRight rest with
    | nil =>
      rw [hsr] at h
      by_cases hx : isSpaceChar x = true
      · simp [hx] at h
      · rw [Bool.not_eq_true] at hx
        simp only [hx, Bool.false_eq_true, if_false, List.mem_singleton] at h
        simp [h]
    | cons y ys =>
      rw [hsr] at h
      rcases List.mem_cons.mp h with rfl | hmem
      · exact List.mem_cons_self _ _
      · exact List.mem_cons_of_mem x (mem_stripRight rest c (by rw [hsr]; exact hmem))

theorem stripRight_eq_self :
    ∀ l : List Char, (∀ c, l.getLast? = some c → isSpaceChar c = false) → stripRight l = l
  | [], _ => rfl
  | x :: rest, h => by
    rw [stripRight_cons]
    cases rest with
    | nil =>
      have hx := h x (by simp)
      simp [stripRight, hx]
    | cons d rest' =>
      have hr : stripRight (d :: rest') = d :: rest' :=
        stripRight_eq_self (d :: rest')
          (fun c hc => h c (by rw [List.getLast?_cons_cons]; exact hc))
      rw [hr]

theorem stripList_head? {l : List Char} {c : Char} (h : (stripList l).head? = some c) :
    isSpaceChar c = false := by
  unfold stripList at h
  exact dropWhile_head?_false l c (stripRight_head? _ c h)

theorem stripList_getLast? {l : List Char} {c : Char} (h : (stripList l).getLast? = some c) :
    isSpaceChar c = false :=
  stripRight_getLast? _ c h

theorem stripList_noAdjSpace {l : List Char} (h : noAdjSpace l) : noAdjSpace (stripList l) :=
  stripRight_noAdjSpace _ (dropWhile_noAdjSpace _ h)

theorem mem_stripList {l : List Char} {c : Char} (h : c ∈ stripList l) : c ∈ l :=
  mem_dropWhile _ _ (mem_stripRight _ _ h)

theorem stripList_eq_self {l : List Char}
    (h1 : ∀ c, l.head? = some c → isSpaceChar c = false)
    (h2 : ∀ c, l.getLast? = some c → isSpaceChar c = false) : stripList l = l := by
  unfold stripList
  rw [dropWhile_eq_self l h1]
  exact stripRight_eq_self l h2

theorem lowerChar_fix {c : Char} (h : isWordChar c = true ∨ c = ' ') : lowerChar c = c := by
  rcases h with h | rfl
  · simp only [isWordChar, Bool.or_eq_true, Bool.and_eq_true, decide_eq_true_eq] at h
    unfold lowerChar
    rw [if_neg]
    simp only [Bool.and_eq_true, decide_eq_true_eq, not_and, not_le]
    omega
  · decide

theorem lowerMap_fix {l : List Char} (h : ∀ c ∈ l, isWordChar c = true ∨ c = ' ') :
    l.map lowerChar = l := by
  induction l with
  | nil => rfl
  | cons c rest ih =>
    rw [List.map_cons, lowerChar_fix (h c (by simp)),
      ih (fun x hx => h x (List.mem_cons_of_mem c hx))]

theorem subNonWord_fix {l : List Char} (h : ∀ c ∈ l, isWordChar c = true ∨ c = ' ') :
    subNonWord l = l := by
  induction l with
  | nil => rfl
  | cons c rest ih =>
    have hcond : (isWordChar c || isSpaceChar c) = true := by
      rcases h c (by simp) with hw | rfl
      · simp [hw]
      · simp [isSpaceChar]
    unfold subNonWord
    rw [List.map_cons, if_pos hcond]
    have := ih (fun x hx => h x (List.mem_cons_of_mem c hx))
    unfold subNonWord at this
    rw [this]

theorem collapseWS_fix :
    ∀ l : List Char, noAdjSpace l → (∀ c ∈ l, isWordChar c = true ∨ c = ' ') → collapseWS l = l
  | [], _, _ => rfl
  | [c], _, h => by
    unfold collapseWS
    rcases h c (by simp) with hw | rfl
    · simp [isWordChar_not_space hw]
    · simp
  | c :: d :: rest, hadj, h => by
    have hcd : (isSpaceChar c && isSpaceChar d) = false := by
      rcases Bool.eq_false_or_eq_true (isSpaceChar c && isSpaceChar d) with ht | hf
      · exact absurd (Bool.and_eq_true .. |>.mp ht) hadj.1
      · exact hf
    have htail := collapseWS_fix (d :: rest) hadj.2
      (fun x hx => h x (List.mem_cons_of_mem c hx))
    rw [collapseWS_cons_cons, if_neg (by simp [hcd]), htail]
    congr 1
    rcases h c (by simp) with hw | rfl
    · simp [isWordChar_not_space hw]
    · simp

theorem normalize_chars (s : List Char) :
    ∀ c ∈ normalize_text s, isWordChar c = true ∨ c = ' ' := by
  intro c hc
  unfold normalize_text at hc
  exact collapseWS_chars _ (fun d hd => mem_subNonWord hd) c (mem_stripList hc)

theorem normalize_noAdjSpace (s : List Char) : noAdjSpace (normalize_text s) :=
  stripList_noAdjSpace (collapseWS_noAdjSpace _)

theorem normalize_head? {s : List Char} {c : Char}
    (h : (normalize_text s).head? = some c) : isSpaceChar c = false :=
  stripList_head? h

theorem normalize_getLast? {s : List Char} {c : Char}
    (h : (normalize_text s).getLast? = some c) : isSpaceChar c = false :=
  stripList_getLast? h

/-- C8: for every string `x`, applying the text normalizer to an
already-normalized string returns that string unchanged:
`normalize_text (normalize_text x) = normalize_text x`. -/
theorem c8_normalize_text_idem (s : List Char) :
    normalize_text (normalize_text s) = normalize_text s := by
  have hchars := normalize_chars s
  have hadj := normalize_noAdjSpace s
  have hhead : ∀ c, (normalize_text s).head? = some c → isSpaceChar c = false :=
    fun _ hc => normalize_head? hc
  have hlast : ∀ c, (normalize_text s).getLast? = some c → isSpaceChar c = false :=
    fun _ hc => normalize_getLast? hc
  show stripList (collapseWS (subNonWord (stripList ((normalize_text s).map lowerChar))))
    = normalize_text s
  rw [lowerMap_fix hchars, stripList_eq_self hhead hlast, subNonWord_fix hchars,
    collapseWS_fix _ hadj hchars, stripList_eq_self hhead hlast]

/-! ## Bounds on the similarity ratio -/

theorem lcp_le_left : ∀ a b : List Char, lcp a b ≤ a.length
  | [], b => by cases b <;> simp [lcp]
  | _ :: _, [] => by simp [lcp]
  | x :: as, y :: bs => by
    unfold lcp
    split
    · exact Nat.succ_le_succ (lcp_le_left as bs)
    · exact Nat.zero_le _

theorem lcp_le_right : ∀ a b : List Char, lcp a b ≤ b.length
  | [], b => by cases b <;> simp [lcp]
  | _ :: _, [] => by simp [lcp]
  | x :: as, y :: bs => by
    unfold lcp
    split
    · exact Nat.succ_le_succ (lcp_le_right as bs)
    · exact Nat.zero_le _

theorem foldl_best_mem :
    ∀ (L : List (ℕ × ℕ × ℕ)) (init : ℕ × ℕ × ℕ),
      L.foldl (fun best c => if best.2.2 < c.2.2 then c else best) init = init ∨
        L.foldl (fun best c => if best.2.2 < c.2.2 then c else best) init ∈ L
  | [], _ => Or.inl rfl
  | x :: L, init => by
    rw [List.foldl_cons]
    rcases foldl_best_mem L (if init.2.2 < x.2.2 then x else init) with h | h
    · rw [h]
      split
      · exact Or.inr (List.mem_cons_self _ _)
      · exact Or.inl rfl
    · exact Or.inr (List.mem_cons_of_mem _ h)

theorem mem_candBlocks {a b : List Char} {p : ℕ × ℕ × ℕ} (h : p ∈ candBlocks a b) :
    p.1 ≤ a.length ∧ p.2.1 ≤ b.length ∧ p.2.2 = lcp (a.drop p.1) (b.drop p.2.1) := by
  unfold candBlocks at h
  simp only [List.mem_flatMap, List.mem_map, List.mem_range] at h
  obtain ⟨i, hi, j, hj, rfl⟩ := h
  exact ⟨Nat.lt_succ_iff.mp hi, Nat.lt_succ_iff.mp hj, rfl⟩

theorem findLongestMatch_bounds {a b : List Char} {i j k : ℕ}
    (h : findLongestMatch a b = (i, j, k)) (hk : k ≠ 0) :
    i + k ≤ a.length ∧ j + k ≤ b.length := by
  rcases foldl_best_mem (candBlocks a b) (0, 0, 0) with h0 | hmem
  · rw [show (candBlocks a b).foldl (fun best c => if best.2.2 < c.2.2 then c else best) (0, 0, 0)
        = findLongestMatch a b from rfl, h] at h0
    exact absurd (congrArg (fun p => p.2.2) h0) hk
  · rw [show (candBlocks a b).foldl (fun best c => if best.2.2 < c.2.2 then c else best) (0, 0, 0)
        = findLongestMatch a b from rfl, h] at hmem
    obtain ⟨hi, hj, hlcp⟩ := mem_candBlocks hmem
    dsimp only at hi hj hlcp
    have h1 : k ≤ (a.drop i).length := hlcp ▸ lcp_le_left _ _
    have h2 : k ≤ (b.drop j).length := hlcp ▸ lcp_le_right _ _
    rw [List.length_drop] at h1
    rw [List.length_drop] at h2
    omega

theorem matchTotalF_le :
    ∀ (fuel : ℕ) (a b : List Char),
      matchTotalF fuel a b ≤ a.length ∧ matchTotalF fuel a b ≤ b.length
  | 0, a, b => by simp [matchTotalF]
  | fuel + 1, a, b => by
    rw [show matchTotalF (fuel + 1) a b =
        (match findLongestMatch a b with
         | (i, j, k) =>
           if k = 0 then 0
           else
             matchTotalF fuel (a.take i) (b.take j) + k +
               matchTotalF fuel (a.drop (i + k)) (b.drop (j + k))) from rfl]
    rcases hflm : findLongestMatch a b with ⟨i, j, k⟩
    simp only
    split
    · simp
    · rename_i hk
      obtain ⟨hia, hjb⟩ := findLongestMatch_bounds hflm hk
      have h1 : matchTotalF fuel (a.take i) (b.take j) ≤ i :=
        le_trans (matchTotalF_le fuel _ _).1
          (by rw [List.length_take]; exact Nat.min_le_left _ _)
      have h2 : matchTotalF fuel (a.take i) (b.take j) ≤ j :=
        le_trans (matchTotalF_le fuel _ _).2
          (by rw [List.length_take]; exact Nat.min_le_left _ _)
      have h3 : matchTotalF fuel (a.drop (i + k)) (b.drop (j + k)) ≤ a.length - (i + k) :=
        le_trans (matchTotalF_le fuel _ _).1 (le_of_eq (List.length_drop _ _))
      have h4 : matchTotalF fuel (a.drop (i + k)) (b.drop (j + k)) ≤ b.length - (j + k) :=
        le_trans (matchTotalF_le fuel _ _).2 (le_of_eq (List.length_drop _ _))
      constructor
      · calc matchTotalF fuel (a.take i) (b.take j) + k +
              matchTotalF fuel (a.drop (i + k)) (b.drop (j + k))
            ≤ i + k + (a.length - (i + k)) := add_le_add (add_le_add h1 le_rfl) h3
          _ ≤ a.length := by omega
      · calc matchTotalF fuel (a.take i) (b.take j) + k +
              matchTotalF fuel (a.drop (i + k)) (b.drop (j + k))
            ≤ j + k + (b.length - (j + k)) := add_le_add (add_le_add h2 le_rfl) h4
          _ ≤ b.length := by omega

theorem matchTotal_le (a b : List Char) :
    matchTotal a b ≤ a.length ∧ matchTotal a b ≤ b.length :=
  matchTotalF_le _ a b

theorem similarity_nonneg (a b : List Char) : 0 ≤ similarity a b := by
  unfold similarity
  split
  · exact le_refl 0
  · exact div_nonneg (by positivity) (by positivity)

theorem similarity_le_one (a b : List Char) : similarity a b ≤ 1 := by
  unfold similarity
  split
  · exact zero_le_one
  · rename_i hab
    simp only [Bool.or_eq_true, List.isEmpty_iff, not_or] at hab
    have ha : 0 < a.length := List.length_pos.mpr hab.1
    have hb : 0 < b.length := List.length_pos.mpr hab.2
    have hden : (0 : ℚ) < (a.length : ℚ) + (b.length : ℚ) := by positivity
    rw [div_le_one hden]
    have hm := matchTotal_le a b
    have : 2 * matchTotal a b ≤ a.length + b.length := by omega
    exact_mod_cast this

/-! ## Case analysis of `rank_entry` -/

theorem rank_entry_eq_some {q : List Char} {qt : List (List Char)} {e : Entry}
    {r : RankedResult} (h : rank_entry q qt e = some r) :
    r.entry = e ∧
      ((r.reason = exactReason ∧ r.score = 1.00) ∨
       (r.reason = prefixReason ∧ r.score = 0.92) ∨
       (r.reason = tokensReason ∧ r.score = 0.88) ∨
       (r.reason = substringReason ∧ r.score = 0.75) ∨
       (∃ s : ℚ, s = similarity q e.norm_title ∧ 0.72 ≤ s ∧ s ≤ 1 ∧
          r.score = 0.50 + s * 0.40 ∧ r.reason = simReason s)) := by
  unfold rank_entry at h
  split at h
  · cases h
  split at h
  · cases h
  split at h
  · cases h
    exact ⟨rfl, Or.inl ⟨rfl, rfl⟩⟩
  split at h
  · cases h
    exact ⟨rfl, Or.inr (Or.inl ⟨rfl, rfl⟩)⟩
  split at h
  · cases h
    exact ⟨rfl, Or.inr (Or.inr (Or.inl ⟨rfl, rfl⟩))⟩
  split at h
  · cases h
    exact ⟨rfl, Or.inr (Or.inr (Or.inr (Or.inl ⟨rfl, rfl⟩)))⟩
  split at h
  · rename_i hsim
    cases h
    exact ⟨rfl, Or.inr (Or.inr (Or.inr (Or.inr
      ⟨similarity q e.norm_title, rfl, hsim, similarity_le_one _ _, rfl, rfl⟩)))⟩
  · cases h

/-! ## The sort order -/

theorem char_eq_of_toNat_eq {a b : Char} (h : a.toNat = b.toNat) : a = b := by
  have := congrArg Char.ofNat h
  rwa [Char.ofNat_toNat, Char.ofNat_toNat] at this

theorem strLtB_irrefl : ∀ s : List Char, strLtB s s = false
  | [] => rfl
  | c :: s => by simp [strLtB, strLtB_irrefl s]

theorem strLtB_asymm : ∀ s t : List Char, strLtB s t = true → strLtB t s = false
  | [], [], h => by simp [strLtB] at h ⊢
  | [], _ :: _, _ => by simp [strLtB]
  | _ :: _, [], h => by simp [strLtB] at h
  | a :: as, b :: bs, h => by
    unfold strLtB at h ⊢
    by_cases hab : a.toNat < b.toNat
    · rw [if_neg (by omega), if_pos (by omega)]
    · rw [if_neg hab] at h
      by_cases hba : b.toNat < a.toNat
      · rw [if_pos hba] at h
        cases h
      · rw [if_neg hba] at h
        rw [if_neg hba, if_neg hab]
        exact strLtB_asymm as bs h

theorem strLtB_nil_right : ∀ t : List Char, strLtB t [] = false
  | [] => rfl
  | _ :: _ => rfl

theorem strLtB_trans : ∀ s t u : List Char,
    strLtB s t = true → strLtB t u = true → strLtB s u = true
  | _, t, [], _, h2 => by rw [strLtB_nil_right] at h2; cases h2
  | [], _, _ :: _, _, _ => rfl
  | _ :: _, [], _, h1, _ => by rw [strLtB_nil_right] at h1; cases h1
  | a :: as, b :: bs, c :: cs, h1, h2 => by
    unfold strLtB at h1 h2 ⊢
    by_cases hab : a.toNat < b.toNat <;> by_cases hbc : b.toNat < c.toNat
    · rw [if_pos (by omega)]
    · rw [if_neg hbc] at h2
      by_cases hcb : c.toNat < b.toNat
      · rw [if_pos hcb] at h2; cases h2
      · have : b.toNat = c.toNat := by omega
        rw [if_pos (by omega)]
    · rw [if_neg hab] at h1
      by_cases hba : b.toNat < a.toNat
      · rw [if_pos hba] at h1; cases h1
      · have : a.toNat = b.toNat := by omega
        rw [if_pos (by omega)]
    · rw [if_neg hab] at h1
      rw [if_neg hbc] at h2
      by_cases hba : b.toNat < a.toNat
      · rw [if_pos hba] at h1; cases h1
      · by_cases hcb : c.toNat < b.toNat
        · rw [if_pos hcb] at h2; cases h2
        · rw [if_neg hba] at h1
          rw [if_neg hcb] at h2
          rw [if_neg (by omega), if_neg (by omega)]
          exact strLtB_trans as bs cs h1 h2

theorem strLtB_connex : ∀ s t : List Char,
    strLtB s t = false → strLtB t s = false → s = t
  | [], [], _, _ => rfl
  | [], _ :: _, h1, _ => by simp [strLtB] at h1
  | _ :: _, [], _, h2 => by simp [strLtB] at h2
  | a :: as, b :: bs, h1, h2 => by
    unfold strLtB at h1 h2
    by_cases hab : a.toNat < b.toNat
    · rw [if_pos hab] at h1; cases h1
    · by_cases hba : b.toNat < a.toNat
      · rw [if_pos hba] at h2; cases h2
      · rw [if_neg hab, if_neg hba] at h1
        rw [if_neg hba, if_neg hab] at h2
        have hc : a = b := char_eq_of_toNat_eq (by omega)
        rw [hc, strLtB_connex as bs h1 h2]

theorem keyLtB_asymm {x y : ℚ × List Char} (h : keyLtB x y = true) : keyLtB y x = false := by
  unfold keyLtB at h ⊢
  by_cases h1 : x.1 < y.1
  · rw [if_neg (by exact not_lt_of_lt h1), if_pos h1]
  · rw [if_neg h1] at h
    by_cases h2 : y.1 < x.1
    · rw [if_pos h2] at h; cases h
    · rw [if_neg h2] at h
      rw [if_neg h2, if_neg h1, strLtB_asymm _ _ h]

theorem keyLtB_trans {x y z : ℚ × List Char}
    (h1 : keyLtB x y = true) (h2 : keyLtB y z = true) : keyLtB x z = true := by
  unfold keyLtB at h1 h2 ⊢
  by_cases hxy : x.1 < y.1 <;> by_cases hyz : y.1 < z.1
  · rw [if_pos (lt_trans hxy hyz)]
  · rw [if_neg hyz] at h2
    by_cases hzy : z.1 < y.1
    · rw [if_pos hzy] at h2; cases h2
    · rw [if_neg hzy] at h2
      have : y.1 = z.1 := le_antisymm (not_lt.mp hzy) (not_lt.mp hyz)
      rw [if_pos (this ▸ hxy)]
  · rw [if_neg hxy] at h1
    by_cases hyx : y.1 < x.1
    · rw [if_pos hyx] at h1; cases h1
    · have : x.1 = y.1 := le_antisymm (not_lt.mp hyx) (not_lt.mp hxy)
      rw [if_pos (this ▸ hyz)]
  · rw [if_neg hxy] at h1
    rw [if_neg hyz] at h2
    by_cases hyx : y.1 < x.1
    · rw [if_pos hyx] at h1; cases h1
    · by_cases hzy : z.1 < y.1
      · rw [if_pos hzy] at h2; cases h2
      · rw [if_neg hyx] at h1
        rw [if_neg hzy] at h2
        have e1 : x.1 = y.1 := le_antisymm (not_lt.mp hyx) (not_lt.mp hxy)
        have e2 : y.1 = z.1 := le_antisymm (not_lt.mp hzy) (not_lt.mp hyz)
        rw [if_neg (by rw [e1, e2]; exact lt_irrefl _),
          if_neg (by rw [e1, e2]; exact lt_irrefl _)]
        exact strLtB_trans _ _ _ h1 h2

theorem keyLtB_conn {x y : ℚ × List Char}
    (h1 : keyLtB x y = false) (h2 : keyLtB y x = false) : x = y := by
  unfold keyLtB at h1 h2
  by_cases a : x.1 < y.1
  · rw [if_pos a] at h1; cases h1
  · by_cases b : y.1 < x.1
    · rw [if_pos b] at h2; cases h2
    · rw [if_neg a, if_neg b] at h1
      rw [if_neg b, if_neg a] at h2
      exact Prod.ext (le_antisymm (not_lt.mp b) (not_lt.mp a)) (strLtB_connex _ _ h1 h2)

theorem keyLtB_notLt_trans {x y z : ℚ × List Char}
    (h1 : keyLtB x y = false) (h2 : keyLtB y z = false) : keyLtB x z = false := by
  rcases Bool.eq_false_or_eq_true (keyLtB x z) with h | h
  swap
  · exact h
  rcases Bool.eq_false_or_eq_true (keyLtB y x) with hyx | hyx
  · have := keyLtB_trans hyx h
    rw [this] at h2
    cases h2
  · have hxy := keyLtB_conn h1 hyx
    rw [← hxy, h] at h2
    cases h2

theorem keyLtB_false_elim {x y : ℚ × List Char} (h : keyLtB x y = false) :
    y.1 < x.1 ∨ (y.1 = x.1 ∧ (y.2 = x.2 ∨ strLtB y.2 x.2 = true)) := by
  unfold keyLtB at h
  by_cases h1 : x.1 < y.1
  · rw [if_pos h1] at h; cases h
  · by_cases h2 : y.1 < x.1
    · exact Or.inl h2
    · rw [if_neg h1, if_neg h2] at h
      refine Or.inr ⟨le_antisymm (not_lt.mp h1) (not_lt.mp h2), ?_⟩
      rcases Bool.eq_false_or_eq_true (strLtB y.2 x.2) with ht | hf
      · exact Or.inr ht
      · exact Or.inl (strLtB_connex _ _ hf h)

/-! ## The insertion sort of `search` -/

theorem mem_insertDesc {r x : RankedResult} :
    ∀ l : List RankedResult, x ∈ insertDesc r l → x = r ∨ x ∈ l
  | [], h => by simpa [insertDesc] using h
  | y :: ys, h => by
    unfold insertDesc at h
    split at h
    · rcases List.mem_cons.mp h with rfl | h'
      · exact Or.inl rfl
      · exact Or.inr h'
    · rcases List.mem_cons.mp h with rfl | h'
      · exact Or.inr (List.mem_cons_self _ _)
      · rcases mem_insertDesc ys h' with h'' | h''
        · exact Or.inl h''
        · exact Or.inr (List.mem_cons_of_mem _ h'')

theorem insertDesc_pairwise {r : RankedResult} :
    ∀ l : List RankedResult,
      l.Pairwise (fun a b => keyLtB (sortKey a) (sortKey b) = false) →
      (insertDesc r l).Pairwise (fun a b => keyLtB (sortKey a) (sortKey b) = false)
  | [], _ => List.pairwise_singleton ..
  | y :: ys, h => by
    unfold insertDesc
    obtain ⟨hy, hys⟩ := List.pairwise_cons.mp h
    split
    · rename_i hlt
      refine List.Pairwise.cons (fun z hz => ?_) h
      rcases List.mem_cons.mp hz with rfl | hz'
      · exact keyLtB_asymm hlt
      · rcases Bool.eq_false_or_eq_true (keyLtB (sortKey r) (sortKey z)) with ht | hf
        · have := keyLtB_trans hlt ht
          rw [hy z hz'] at this
          cases this
        · exact hf
    · rename_i hnlt
      rw [Bool.not_eq_true] at hnlt
      refine List.Pairwise.cons (fun z hz => ?_) (insertDesc_pairwise ys hys)
      rcases mem_insertDesc ys hz with rfl | hz'
      · exact hnlt
      · exact hy z hz'

theorem sortAux_pairwise :
    ∀ l acc : List RankedResult,
      acc.Pairwise (fun a b => keyLtB (sortKey a) (sortKey b) = false) →
      (l.foldl (fun a r => insertDesc r a) acc).Pairwise
        (fun a b => keyLtB (sortKey a) (sortKey b) = false)
  | [], _, h => h
  | _ :: rest, acc, h => sortAux_pairwise rest _ (insertDesc_pairwise acc h)

theorem sortRanked_pairwise (l : List RankedResult) :
    (sortRanked l).Pairwise (fun a b => keyLtB (sortKey a) (sortKey b) = false) :=
  sortAux_pairwise l [] List.Pairwise.nil

theorem mem_sortAux :
    ∀ (l acc : List RankedResult) (x : RankedResult),
      x ∈ l.foldl (fun a r => insertDesc r a) acc → x ∈ acc ∨ x ∈ l
  | [], _, _, h => Or.inl h
  | r :: rest, acc, x, h => by
    rcases mem_sortAux rest _ x h with h' | h'
    · rcases mem_insertDesc acc h' with rfl | h''
      · exact Or.inr (List.mem_cons_self _ _)
      · exact Or.inl h''
    · exact Or.inr (List.mem_cons_of_mem _ h')

theorem mem_sortRanked {l : List RankedResult} {x : RankedResult}
    (h : x ∈ sortRanked l) : x ∈ l := by
  rcases mem_sortAux l [] x h with h' | h'
  · exact absurd h' (List.not_mem_nil x)
  · exact h'

/-! ## Characterization of `search` -/

theorem search_eq (query : List Char) (entries : List Entry) (limit : ℕ) (explain : Bool) :
    search query entries limit explain =
      if normalize_text query = [] then []
      else
        (sortRanked (entries.filterMap
          (rank_entry (normalize_text query) (tokenize (normalize_text query))))).take limit := by
  unfold search
  split
  · rfl
  · cases explain <;> rfl

/-- C10: the `explain` keyword argument of `search` has no effect on
its return value — for every query, entry universe and limit, the
result lists with `explain = true` and `explain = false` are equal. -/
theorem c10_search_explain_no_effect (query : List Char) (entries : List Entry) (limit : ℕ) :
    search query entries limit true = search query entries limit false := by
  rw [search_eq, search_eq]

/-- C4: a query that is empty or normalizes to the empty string yields
the empty result list.  (`search` is modelled as a total Lean function,
so it returns a value — never an exception — on every input.) -/
theorem c4_search_empty_query (query : List Char) (entries : List Entry) (limit : ℕ)
    (explain : Bool) (h : normalize_text query = []) :
    search query entries limit explain = [] := by
  rw [search_eq, if_pos h]

theorem c4_search_empty_query_witness :
    normalize_text "   ".toList = [] ∧ search "   ".toList [] 8 false = [] :=
  ⟨by decide, c4_search_empty_query _ [] 8 false (by decide)⟩

/-- C3: for every query, entry universe and positive limit, `search`
returns at most `limit` results, sorted in descending order of the
composite key (score, source tag): strictly higher scores first, and
among equal scores a lexicographically greater source tag first. -/
theorem c3_search_sorted_truncated (query : List Char) (entries : List Entry) (limit : ℕ)
    (explain : Bool) (_hlim : 0 < limit) :
    (search query entries limit explain).length ≤ limit ∧
      (search query entries limit explain).Pairwise resultOrder := by
  rw [search_eq]
  split
  · simp
  · constructor
    · rw [List.length_take]
      exact Nat.min_le_left _ _
    · refine List.Pairwise.imp (fun h => ?_) ((sortRanked_pairwise _).sublist (List.take_sublist _ _))
      exact keyLtB_false_elim h

theorem c3_search_sorted_truncated_witness :
    0 < 8 ∧
      ((search "hello".toList [⟨"handspeak".toList, "Hello".toList, "http://a".toList⟩] 8
          false).length ≤ 8 ∧
        (search "hello".toList [⟨"handspeak".toList, "Hello".toList, "http://a".toList⟩] 8
          false).Pairwise resultOrder) :=
  ⟨by decide, c3_search_sorted_truncated _ _ 8 false (by decide)⟩

/-- C6: every `RankedResult` returned by `search` has a score in the
closed range `[0, 1]`; and the similarity ratio itself never exceeds
`1`, which is why the similarity-tier value `0.50 + sim · 0.40` stays below
`1`. -/
theorem c6_score_range {query : List Char} {entries : List Entry} {limit : ℕ}
    {explain : Bool} {r : RankedResult} (h : r ∈ search query entries limit explain) :
    (0 ≤ r.score ∧ r.score ≤ 1) ∧ ∀ a b : List Char, similarity a b ≤ 1 := by
  refine ⟨?_, fun a b => similarity_le_one a b⟩
  rw [search_eq] at h
  split at h
  · exact absurd h (List.not_mem_nil r)
  · have h1 := mem_sortRanked ((List.take_sublist _ _).subset h)
    obtain ⟨e, -, he⟩ := List.mem_filterMap.mp h1
    obtain ⟨-, hcases⟩ := rank_entry_eq_some he
    rcases hcases with ⟨-, hs⟩ | ⟨-, hs⟩ | ⟨-, hs⟩ | ⟨-, hs⟩ | ⟨s, -, hs72, hs1, hsc, -⟩
    · rw [hs]; norm_num
    · rw [hs]; norm_num
    · rw [hs]; norm_num
    · rw [hs]; norm_num
    · rw [hsc]
      have hge : (0.72 : ℚ) * 0.40 ≤ s * 0.40 :=
        mul_le_mul_of_nonneg_right hs72 (by norm_num)
      have hle : s * 0.40 ≤ 1 * 0.40 := mul_le_mul_of_nonneg_right hs1 (by norm_num)
      constructor
      · nlinarith
      · nlinarith

theorem c6_score_range_witness :
    (⟨⟨"handspeak".toList, "Hello".toList, "http://a".toList⟩, 1.00, exactReason⟩ : RankedResult)
        ∈ search "hello".toList [⟨"handspeak".toList, "Hello".toList, "http://a".toList⟩] 8
          false ∧
      ((0 ≤ (1.00 : ℚ) ∧ (1.00 : ℚ) ≤ 1) ∧ ∀ a b : List Char, similarity a b ≤ 1) :=
  ⟨by with_unfolding_all decide,
    @c6_score_range "hello".toList [⟨"handspeak".toList, "Hello".toList, "http://a".toList⟩] 8
      false ⟨⟨"handspeak".toList, "Hello".toList, "http://a".toList⟩, 1.00, exactReason⟩
      (by with_unfolding_all decide)⟩

/-- C7: on the three-entry universe of the scenario of the spec, the query
"hello" with limit 8 returns exactly the "Hello" entry (score 1.00,
exact tier) followed by the "Hello there" entry (score 0.92, prefix
tier); the "Help" entry matches no tier — its similarity to "hello" is
below 0.72 — and appears in no result. -/
theorem c7_hello_scenario :
    search "hello".toList
        [⟨"handspeak".toList, "Hello".toList, "http://a".toList⟩,
         ⟨"lifeprint".toList, "Hello there".toList, "http://b".toList⟩,
         ⟨"lifeprint".toList, "Help".toList, "http://c".toList⟩] 8 false
      = [⟨⟨"handspeak".toList, "Hello".toList, "http://a".toList⟩, 1.00, exactReason⟩,
         ⟨⟨"lifeprint".toList, "Hello there".toList, "http://b".toList⟩, 0.92, prefixReason⟩] ∧
    rank_entry (normalize_text "hello".toList) (tokenize (normalize_text "hello".toList))
        ⟨"lifeprint".toList, "Help".toList, "http://c".toList⟩ = none ∧
    similarity "hello".toList "help".toList < 0.72 := by
  with_unfolding_all decide

/-- C1: for a non-empty normalized query (with its token list) and an
entry whose normalized title is non-empty, `rank_entry` rejects when
the query has length ≥ 3 and the title length ≤ 1, and otherwise scores
by the first applicable tier in the fixed order — exact equality
(1.00, "exact match"), title starts with query (0.92, "prefix match"),
all query tokens among the title tokens (0.88, "all query tokens
present"), query a contiguous substring of the title (0.75, "substring
match"), character similarity ≥ 0.72 (0.50 + sim·0.40 with the
similarity value in the reason), else no result. -/
theorem c1_rank_entry_tier_cascade (q : List Char) (qt : List (List Char)) (e : Entry)
    (_hq : q = normalize_text q) (_hqne : q ≠ []) (_hqt : qt = tokenize q)
    (ht : e.norm_title ≠ []) :
    (3 ≤ q.length ∧ e.norm_title.length ≤ 1 → rank_entry q qt e = none) ∧
      (¬(3 ≤ q.length ∧ e.norm_title.length ≤ 1) →
        (e.norm_title = q → rank_entry q qt e = some ⟨e, 1.00, exactReason⟩) ∧
        (e.norm_title ≠ q → q.isPrefixOf e.norm_title = true →
          rank_entry q qt e = some ⟨e, 0.92, prefixReason⟩) ∧
        (e.norm_title ≠ q → q.isPrefixOf e.norm_title = false →
          (qt ≠ [] ∧ ∀ t ∈ qt, t ∈ tokenize e.title) →
          rank_entry q qt e = some ⟨e, 0.88, tokensReason⟩) ∧
        (e.norm_title ≠ q → q.isPrefixOf e.norm_title = false →
          ¬(qt ≠ [] ∧ ∀ t ∈ qt, t ∈ tokenize e.title) →
          isSubstring q e.norm_title = true →
          rank_entry q qt e = some ⟨e, 0.75, substringReason⟩) ∧
        (e.norm_title ≠ q → q.isPrefixOf e.norm_title = false →
          ¬(qt ≠ [] ∧ ∀ t ∈ qt, t ∈ tokenize e.title) →
          isSubstring q e.norm_title = false →
          0.72 ≤ similarity q e.norm_title →
          rank_entry q qt e = some ⟨e, 0.50 + similarity q e.norm_title * 0.40,
            simReason (similarity q e.norm_title)⟩) ∧
        (e.norm_title ≠ q → q.isPrefixOf e.norm_title = false →
          ¬(qt ≠ [] ∧ ∀ t ∈ qt, t ∈ tokenize e.title) →
          isSubstring q e.norm_title = false →
          similarity q e.norm_title < 0.72 →
          rank_entry q qt e = none)) := by
  refine ⟨fun hshort => ?_, fun hlong =>
    ⟨fun hex => ?_, fun hne hpre => ?_, fun hne hpre htok => ?_,
      fun hne hpre htok hsub => ?_, fun hne hpre htok hsub hsim => ?_,
      fun hne hpre htok hsub hsim => ?_⟩⟩
  all_goals unfold rank_entry
  all_goals rw [if_neg ht]
  · rw [if_pos hshort]
  all_goals rw [if_neg hlong]
  · rw [if_pos hex]
  · rw [if_neg hne, if_pos hpre]
  · rw [if_neg hne, if_neg (by simp [hpre]), if_pos htok]
  · rw [if_neg hne, if_neg (by simp [hpre]), if_neg htok, if_pos hsub]
  · rw [if_neg hne, if_neg (by simp [hpre]), if_neg htok, if_neg (by simp [hsub]),
      if_pos hsim]
  · rw [if_neg hne, if_neg (by simp [hpre]), if_neg htok, if_neg (by simp [hsub]),
      if_neg (not_le.mpr hsim)]

theorem c1_rank_entry_tier_cascade_witness :
    ("hello".toList = normalize_text "hello".toList ∧ "hello".toList ≠ [] ∧
      ["hello".toList] = tokenize "hello".toList ∧
      (⟨"lifeprint".toList, "Hello there".toList, "http://b".toList⟩ : Entry).norm_title ≠ []) ∧
    (3 ≤ "hello".toList.length ∧
        (⟨"lifeprint".toList, "Hello there".toList, "http://b".toList⟩ : Entry).norm_title.length ≤ 1 →
      rank_entry "hello".toList ["hello".toList]
        ⟨"lifeprint".toList, "Hello there".toList, "http://b".toList⟩ = none) :=
  ⟨⟨by decide, by decide, by decide, by decide⟩,
    (c1_rank_entry_tier_cascade "hello".toList ["hello".toList]
      ⟨"lifeprint".toList, "Hello there".toList, "http://b".toList⟩
      (by decide) (by decide) (by decide) (by decide)).1⟩

/-! ## Tier priorities and scores -/

theorem simReason_ne_exactReason (s : ℚ) : simReason s ≠ exactReason := fun h => by
  have h2 : (['s', 'i'] : List Char) = ['e', 'x'] := congrArg (fun l => List.take 2 l) h
  exact absurd h2 (by decide)

theorem simReason_ne_prefixReason (s : ℚ) : simReason s ≠ prefixReason := fun h => by
  have h2 : (['s', 'i'] : List Char) = ['p', 'r'] := congrArg (fun l => List.take 2 l) h
  exact absurd h2 (by decide)

theorem simReason_ne_tokensReason (s : ℚ) : simReason s ≠ tokensReason := fun h => by
  have h2 : (['s', 'i'] : List Char) = ['a', 'l'] := congrArg (fun l => List.take 2 l) h
  exact absurd h2 (by decide)

theorem simReason_ne_substringReason (s : ℚ) : simReason s ≠ substringReason := fun h => by
  have h2 : (['s', 'i'] : List Char) = ['s', 'u'] := congrArg (fun l => List.take 2 l) h
  exact absurd h2 (by decide)

theorem tierIndex_of_exact {r : RankedResult} (h : r.reason = exactReason) :
    tierIndex r = 0 := by
  unfold tierIndex
  rw [h, if_pos rfl]

theorem tierIndex_of_prefixReason {r : RankedResult} (h : r.reason = prefixReason) :
    tierIndex r = 1 := by
  unfold tierIndex
  rw [h, if_neg (by decide), if_pos rfl]

theorem tierIndex_of_tokens {r : RankedResult} (h : r.reason = tokensReason) :
    tierIndex r = 2 := by
  unfold tierIndex
  rw [h, if_neg (by decide), if_neg (by decide), if_pos rfl]

theorem tierIndex_of_substring {r : RankedResult} (h : r.reason = substringReason) :
    tierIndex r = 3 := by
  unfold tierIndex
  rw [h, if_neg (by decide), if_neg (by decide), if_neg (by decide), if_pos rfl]

theorem tierIndex_of_sim {r : RankedResult} {s : ℚ} (h : r.reason = simReason s) :
    tierIndex r = 4 := by
  unfold tierIndex
  rw [h, if_neg (simReason_ne_exactReason s), if_neg (simReason_ne_prefixReason s),
    if_neg (simReason_ne_tokensReason s), if_neg (simReason_ne_substringReason s)]

/-- Which tier a produced result came from, with its score (exactly for
the four discrete tiers, bounds for the similarity tier). -/
theorem rank_tier_score {q : List Char} {qt : List (List Char)} {e : Entry}
    {r : RankedResult} (h : rank_entry q qt e = some r) :
    (tierIndex r = 0 ∧ r.score = 1.00) ∨ (tierIndex r = 1 ∧ r.score = 0.92) ∨
      (tierIndex r = 2 ∧ r.score = 0.88) ∨ (tierIndex r = 3 ∧ r.score = 0.75) ∨
      (tierIndex r = 4 ∧ 0.788 ≤ r.score ∧ r.score ≤ 0.90) := by
  rcases (rank_entry_eq_some h).2 with ⟨hr, hs⟩ | ⟨hr, hs⟩ | ⟨hr, hs⟩ | ⟨hr, hs⟩ |
    ⟨s, _, h72, h1, hsc, hr⟩
  · exact Or.inl ⟨tierIndex_of_exact hr, hs⟩
  · exact Or.inr (Or.inl ⟨tierIndex_of_prefixReason hr, hs⟩)
  · exact Or.inr (Or.inr (Or.inl ⟨tierIndex_of_tokens hr, hs⟩))
  · exact Or.inr (Or.inr (Or.inr (Or.inl ⟨tierIndex_of_substring hr, hs⟩)))
  · refine Or.inr (Or.inr (Or.inr (Or.inr ⟨tierIndex_of_sim hr, ?_, ?_⟩)))
    · rw [hsc]; nlinarith
    · rw [hsc]; nlinarith

/-- C2 counterexample: for the query "abcd", the entry with title
"xabcdx" matches via the substring tier (priority 3) with score 0.75,
while the entry with title "abce" matches only via the lower-priority
similarity tier (priority 4) — yet with the strictly greater score
0.80.  The higher-priority match does not have the greater-or-equal
score, so the claim as stated is false. -/
theorem c2_counterexample :
    normalize_text "abcd".toList = "abcd".toList ∧
    tokenize "abcd".toList = ["abcd".toList] ∧
    search "abcd".toList
        [⟨"s1".toList, "xabcdx".toList, "u1".toList⟩,
         ⟨"s2".toList, "abce".toList, "u2".toList⟩] 8 false
      = [⟨⟨"s2".toList, "abce".toList, "u2".toList⟩, 0.80, "similarity 0.75".toList⟩,
         ⟨⟨"s1".toList, "xabcdx".toList, "u1".toList⟩, 0.75, substringReason⟩] ∧
    tierIndex ⟨⟨"s1".toList, "xabcdx".toList, "u1".toList⟩, 0.75, substringReason⟩ = 3 ∧
    tierIndex ⟨⟨"s2".toList, "abce".toList, "u2".toList⟩, 0.80, "similarity 0.75".toList⟩ = 4 ∧
    (0.75 : ℚ) < 0.80 := by
  with_unfolding_all decide

/-- C2 (amended): for two entries ranked for the same query, the
monotonic tier ordering holds among the four discrete tiers (exact ≥
prefix ≥ all-tokens ≥ substring), and an exact- or prefix-tier match
always scores at least as much as a similarity-tier match (whose score
lies in [0.788, 0.90]); an all-tokens or substring match, however, may
score below a similarity-tier match. -/
theorem c2_amended_tier_monotonicity {q : List Char} {qt : List (List Char)}
    {e1 e2 : Entry} {r1 r2 : RankedResult}
    (h1 : rank_entry q qt e1 = some r1) (h2 : rank_entry q qt e2 = some r2)
    (hp : tierIndex r1 < tierIndex r2)
    (hside : tierIndex r2 ≤ 3 ∨ tierIndex r1 ≤ 1) :
    r2.score ≤ r1.score := by
  rcases rank_tier_score h1 with ⟨ht1, hs1⟩ | ⟨ht1, hs1⟩ | ⟨ht1, hs1⟩ | ⟨ht1, hs1⟩ |
      ⟨ht1, hs1a, hs1b⟩ <;>
    rcases rank_tier_score h2 with ⟨ht2, hs2⟩ | ⟨ht2, hs2⟩ | ⟨ht2, hs2⟩ | ⟨ht2, hs2⟩ |
      ⟨ht2, hs2a, hs2b⟩ <;>
    rw [ht1, ht2] at hp hside <;>
    first
      | (exfalso; omega)
      | (exfalso; rcases hside with hc | hc <;> omega)
      | (rw [hs1, hs2]; norm_num)
      | (rw [hs1]; linarith)

theorem c2_amended_tier_monotonicity_witness :
    rank_entry "hello".toList ["hello".toList]
        ⟨"handspeak".toList, "Hello".toList, "http://a".toList⟩
      = some ⟨⟨"handspeak".toList, "Hello".toList, "http://a".toList⟩, 1.00, exactReason⟩ ∧
    rank_entry "hello".toList ["hello".toList]
        ⟨"lifeprint".toList, "Hello there".toList, "http://b".toList⟩
      = some ⟨⟨"lifeprint".toList, "Hello there".toList, "http://b".toList⟩, 0.92,
          prefixReason⟩ ∧
    tierIndex (⟨⟨"handspeak".toList, "Hello".toList, "http://a".toList⟩, 1.00,
        exactReason⟩ : RankedResult)
      < tierIndex (⟨⟨"lifeprint".toList, "Hello there".toList, "http://b".toList⟩, 0.92,
          prefixReason⟩ : RankedResult) ∧
    (0.92 : ℚ) ≤ 1.00 :=
  ⟨by with_unfolding_all decide, by with_unfolding_all decide, by with_unfolding_all decide,
    @c2_amended_tier_monotonicity "hello".toList ["hello".toList]
      ⟨"handspeak".toList, "Hello".toList, "http://a".toList⟩
      ⟨"lifeprint".toList, "Hello there".toList, "http://b".toList⟩
      ⟨⟨"handspeak".toList, "Hello".toList, "http://a".toList⟩, 1.00, exactReason⟩
      ⟨⟨"lifeprint".toList, "Hello there".toList, "http://b".toList⟩, 0.92, prefixReason⟩
      (by with_unfolding_all decide) (by with_unfolding_all decide)
      (by with_unfolding_all decide) (Or.inl (by with_unfolding_all decide))⟩

/-! ## The loader -/

theorem entryOfObj_eq_spec (src : List Char) (kvs : List (List Char × Json)) :
    entryOfObj src (Json.obj kvs) =
      match dictGet "title".toList (Json.obj kvs), dictGet "url".toList (Json.obj kvs) with
      | some (Json.str t), some (Json.str u) =>
        if t = [] ∨ u = [] then none else some ⟨src, t, u⟩
      | _, _ => none := by
  unfold entryOfObj
  rcases dictGet "title".toList (Json.obj kvs) with - | t'
  · rfl
  · rcases dictGet "url".toList (Json.obj kvs) with - | u'
    · cases t' <;> rfl
    · cases t' <;> try rfl
      cases u' <;> try rfl
      rename_i t u
      by_cases ht0 : t = [] <;> by_cases hu0 : u = [] <;> simp [ht0, hu0]

theorem line_entry_eq (src rawLine : List Char) :
    Option.bind
        (if stripList rawLine = [] then none
         else
           match json_loads (stripList rawLine) with
           | some (Json.obj kvs) => some (Json.obj kvs)
           | _ => none)
        (entryOfObj src)
      = specEntryOfLine src rawLine := by
  unfold specEntryOfLine
  by_cases hl : stripList rawLine = []
  · rw [if_pos hl, if_pos hl]
    rfl
  · rw [if_neg hl, if_neg hl]
    cases hjson : json_loads (stripList rawLine) with
    | none => rfl
    | some v =>
      cases v with
      | null => rfl
      | bool b => rfl
      | num x => rfl
      | str s => rfl
      | arr xs => rfl
      | obj kvs => exact entryOfObj_eq_spec src kvs

theorem loadOne_eq (src : List Char) (content : Option (List Char)) :
    (iter_jsonl content).filterMap (entryOfObj src) = loadSpecOne src content := by
  cases content with
  | none => rfl
  | some text =>
    unfold iter_jsonl loadSpecOne
    rw [List.filterMap_filterMap]
    exact List.filterMap_congr fun x _ => line_entry_eq src x

/-- C5 counterexample: the record `{"title": " ", "url": "u"}` has a
whitespace-only (hence non-empty after stripping would be empty) title,
and the loader DOES produce an Entry from it — the claim says such a
record produces no Entry. -/
theorem c5_counterexample :
    load_entries (some "\x7b\"title\": \" \", \"url\": \"u\"\x7d".toList) none
      = [⟨"handspeak".toList, " ".toList, "u".toList⟩] ∧
    stripList " ".toList = [] :=
  ⟨rfl, by decide⟩

/-- C5 (amended): the loader yields Entries in file order, skipping
exactly the lines that are empty or pure whitespace, the lines that do
not parse as a JSON object, and the parsed objects whose `title` or
`url` is missing, not a string, or the empty string — a whitespace-only
title or url is a non-empty string and its record IS kept; a missing
file yields the empty sequence. -/
theorem c5_amended_loader (handspeak lifeprint : Option (List Char)) :
    load_entries handspeak lifeprint = loadSpec handspeak lifeprint ∧
      load_entries none none = [] := by
  refine ⟨?_, rfl⟩
  unfold load_entries loadSpec
  rw [loadOne_eq, loadOne_eq]

/-! ## The formatter -/

theorem splitOnChar_no_sep (sep : Char) : ∀ l : List Char, sep ∉ l → splitOnChar sep l = [l]
  | [], _ => rfl
  | c :: rest, h => by
    have hr := splitOnChar_no_sep sep rest fun hm => h (List.mem_cons_of_mem c hm)
    have hc : ¬c = sep := fun hc => h (by rw [hc]; exact List.mem_cons_self _ _)
    unfold splitOnChar
    rw [hr]
    dsimp only
    rw [if_neg hc]

theorem splitOnChar_ne_nil (sep : Char) : ∀ l : List Char, splitOnChar sep l ≠ []
  | [] => by simp [splitOnChar]
  | c :: rest => by
    unfold splitOnChar
    cases h : splitOnChar sep rest with
    | nil => simp
    | cons w ws =>
      dsimp only
      split <;> simp

theorem splitOnChar_append (sep : Char) :
    ∀ l rest : List Char, sep ∉ l →
      splitOnChar sep (l ++ sep :: rest) = l :: splitOnChar sep rest
  | [], rest, _ => by
    show splitOnChar sep (sep :: rest) = [] :: splitOnChar sep rest
    conv_lhs => unfold splitOnChar
    cases h : splitOnChar sep rest with
    | nil => exact absurd h (splitOnChar_ne_nil sep rest)
    | cons w ws =>
      dsimp only
      rw [if_pos rfl]
  | c :: l', rest, h => by
    have hc : ¬c = sep := fun hc => h (by rw [hc]; exact List.mem_cons_self _ _)
    have hr := splitOnChar_append sep l' rest fun hm => h (List.mem_cons_of_mem c hm)
    show splitOnChar sep (c :: (l' ++ sep :: rest)) = (c :: l') :: splitOnChar sep rest
    conv_lhs => unfold splitOnChar
    rw [hr]
    dsimp only
    rw [if_neg hc]

theorem intercalate_cons_ne_nil (sep : Char) (l : List Char) (ls : List (List Char))
    (h : ls ≠ []) :
    List.intercalate [sep] (l :: ls) = l ++ sep :: List.intercalate [sep] ls := by
  cases ls with
  | nil => exact absurd rfl h
  | cons l2 ls' => rfl

theorem splitOnChar_intercalate (sep : Char) :
    ∀ ls : List (List Char), ls ≠ [] → (∀ l ∈ ls, sep ∉ l) →
      splitOnChar sep (List.intercalate [sep] ls) = ls
  | [], h, _ => absurd rfl h
  | [l], _, hs => by
    rw [show List.intercalate [sep] [l] = l by simp [List.intercalate]]
    exact splitOnChar_no_sep sep l (hs l (by simp))
  | l :: l2 :: ls, _, hs => by
    rw [intercalate_cons_ne_nil sep l (l2 :: ls) (by simp),
      splitOnChar_append sep l _ (hs l (by simp)),
      splitOnChar_intercalate sep (l2 :: ls) (by simp)
        (fun x hx => hs x (List.mem_cons_of_mem _ hx))]

theorem digitChar_range (d : ℕ) (hd : d < 10) :
    48 ≤ (digitChar d).toNat ∧ (digitChar d).toNat ≤ 57 := by
  interval_cases d <;> decide

theorem mem_natDigitsAux :
    ∀ (fuel n : ℕ) (c : Char), c ∈ natDigitsAux fuel n → 48 ≤ c.toNat ∧ c.toNat ≤ 57
  | 0, _, c, h => absurd h (List.not_mem_nil c)
  | fuel + 1, n, c, h => by
    unfold natDigitsAux at h
    split at h
    · rename_i hn
      rw [List.mem_singleton] at h
      subst h
      exact digitChar_range n hn
    · rcases List.mem_append.mp h with h' | h'
      · exact mem_natDigitsAux fuel (n / 10) c h'
      · rw [List.mem_singleton] at h'
        subst h'
        exact digitChar_range (n % 10) (Nat.mod_lt n (by norm_num))

theorem newline_not_mem_natToChars (n : ℕ) : '\n' ∉ natToChars n := fun h =>
  absurd (mem_natDigitsAux (n + 1) n '\n' h).1 (by decide)

theorem newline_not_mem_fmt2Nat (n : ℕ) : '\n' ∉ fmt2Nat n := by
  unfold fmt2Nat
  intro h
  rcases List.mem_append.mp h with h1 | h1
  · exact newline_not_mem_natToChars _ h1
  rcases List.mem_cons.mp h1 with h2 | h2
  · exact absurd h2 (by decide)
  split at h2
  · rcases List.mem_cons.mp h2 with h3 | h3
    · exact absurd h3 (by decide)
    · exact newline_not_mem_natToChars _ h3
  · exact newline_not_mem_natToChars _ h2

theorem newline_not_mem_fmt2 (q : ℚ) : '\n' ∉ fmt2 q := by
  intro h
  rw [show fmt2 q =
      if roundCents q < 0 then '-' :: fmt2Nat (roundCents q).natAbs
      else fmt2Nat (roundCents q).toNat from rfl] at h
  split at h
  · rcases List.mem_cons.mp h with h1 | h1
    · exact absurd h1 (by decide)
    · exact newline_not_mem_fmt2Nat _ h1
  · exact newline_not_mem_fmt2Nat _ h

theorem hexDigitChar_ne_newline (d : ℕ) (hd : d < 16) : hexDigitChar d ≠ '\n' := by
  interval_cases d <;> decide

theorem newline_not_mem_escChar (quote c : Char) (hq : quote ≠ '\n') :
    '\n' ∉ escChar quote c := by
  unfold escChar
  by_cases h1 : c = '\\'
  · rw [if_pos h1]; decide
  rw [if_neg h1]
  by_cases h2 : c = quote
  · rw [if_pos h2]
    intro h
    rcases List.mem_cons.mp h with h' | h'
    · exact absurd h' (by decide)
    · rw [List.mem_singleton] at h'
      exact hq h'.symm
  rw [if_neg h2]
  by_cases h3 : c = '\n'
  · rw [if_pos h3]; decide
  rw [if_neg h3]
  by_cases h4 : c = '\r'
  · rw [if_pos h4]; decide
  rw [if_neg h4]
  by_cases h5 : c = '\t'
  · rw [if_pos h5]; decide
  rw [if_neg h5]
  by_cases h6 : (c.toNat < 32 || c.toNat = 127) = true
  · rw [if_pos h6]
    intro h
    rcases List.mem_cons.mp h with h' | h'
    · exact absurd h' (by decide)
    rcases List.mem_cons.mp h' with h'' | h''
    · exact absurd h'' (by decide)
    rcases List.mem_cons.mp h'' with h3' | h3'
    · exact hexDigitChar_ne_newline _ (Nat.mod_lt _ (by norm_num)) h3'.symm
    rcases List.mem_cons.mp h3' with h4' | h4'
    · exact hexDigitChar_ne_newline _ (Nat.mod_lt _ (by norm_num)) h4'.symm
    · exact absurd h4' (List.not_mem_nil _)
  · rw [if_neg h6]
    intro h
    rw [List.mem_singleton] at h
    exact h3 h.symm

theorem newline_not_mem_pyRepr (s : List Char) : '\n' ∉ pyRepr s := by
  intro h
  rw [show pyRepr s =
      (if s.contains '\'' && !(s.contains '"') then '"' else '\'') ::
        ((s.map (escChar
            (if s.contains '\'' && !(s.contains '"') then '"' else '\''))).flatten ++
          [if s.contains '\'' && !(s.contains '"') then '"' else '\'']) from rfl] at h
  have hq : (if s.contains '\'' && !(s.contains '"') then '"' else '\'') ≠ '\n' := by
    split <;> decide
  rcases List.mem_cons.mp h with h' | h'
  · exact hq h'.symm
  rcases List.mem_append.mp h' with h'' | h''
  · obtain ⟨chunk, hchunk, hmem⟩ := List.mem_flatten.mp h''
    obtain ⟨c, -, rfl⟩ := List.mem_map.mp hchunk
    exact newline_not_mem_escChar _ c hq hmem
  · rw [List.mem_singleton] at h''
    exact hq h''.symm

theorem newline_not_mem_headerLine (q : List Char) : '\n' ∉ headerLine q := by
  unfold headerLine
  intro h
  rcases List.mem_append.mp h with h1 | h1
  · rcases List.mem_append.mp h1 with h2 | h2
    · exact absurd h2 (by decide)
    · exact newline_not_mem_pyRepr q h2
  · exact absurd h1 (by decide)

theorem newline_not_mem_noMatchesLine (q : List Char) : '\n' ∉ noMatchesLine q := by
  unfold noMatchesLine
  intro h
  rcases List.mem_append.mp h with h1 | h1
  · rcases List.mem_append.mp h1 with h2 | h2
    · exact absurd h2 (by decide)
    · exact newline_not_mem_pyRepr q h2
  · exact absurd h1 (by decide)

theorem newline_not_mem_resultLine {flag : Bool} {r : RankedResult}
    (hs : '\n' ∉ r.entry.source) (ht : '\n' ∉ r.entry.title) (hu : '\n' ∉ r.entry.url)
    (hr : '\n' ∉ r.reason) : '\n' ∉ resultLine flag r := by
  unfold resultLine
  intro h
  rcases List.mem_append.mp h with h1 | hIf
  · rcases List.mem_append.mp h1 with h2 | hUrl
    · rcases List.mem_append.mp h2 with h3 | hColon
      · rcases List.mem_append.mp h3 with h4 | hTitle
        · rcases List.mem_append.mp h4 with h5 | hBracket
          · rcases List.mem_append.mp h5 with h6 | hSrc
            · exact absurd h6 (by decide)
            · exact hs hSrc
          · exact absurd hBracket (by decide)
        · exact ht hTitle
      · exact absurd hColon (by decide)
    · exact hu hUrl
  · split at hIf
    · rcases List.mem_append.mp hIf with h7 | hParen
      · rcases List.mem_append.mp h7 with h8 | hFmt
        · rcases List.mem_append.mp h8 with h9 | hScore
          · rcases List.mem_append.mp h9 with h10 | hReason
            · exact absurd h10 (by decide)
            · exact hr hReason
          · exact absurd hScore (by decide)
        · exact newline_not_mem_fmt2 _ hFmt
      · exact absurd hParen (by decide)
    · exact absurd hIf (List.not_mem_nil _)

/-- C9: when the result list is empty the formatter produces exactly
the single no-matches line quoting the query; when it is non-empty and
no component contains a newline, splitting the output on newlines
yields exactly the header line quoting the query followed by one
result line per result (each showing source tag, title and URL, plus
the reason and two-decimal score when the reasons flag is set). -/
theorem c9_format_results_shape (query : List Char) (results : List RankedResult)
    (include_reasons : Bool)
    (hcomp : ∀ r ∈ results, '\n' ∉ r.entry.source ∧ '\n' ∉ r.entry.title ∧
      '\n' ∉ r.entry.url ∧ '\n' ∉ r.reason) :
    (results = [] →
      format_results query results include_reasons = noMatchesLine query ∧
        '\n' ∉ noMatchesLine query) ∧
    (results ≠ [] →
      splitOnChar '\n' (format_results query results include_reasons)
          = headerLine query :: results.map (resultLine include_reasons) ∧
        (results.map (resultLine include_reasons)).length = results.length) := by
  constructor
  · intro he
    refine ⟨?_, newline_not_mem_noMatchesLine query⟩
    unfold format_results
    rw [if_pos he]
  · intro hne
    refine ⟨?_, List.length_map _ _⟩
    unfold format_results
    rw [if_neg hne]
    unfold joinLines
    refine splitOnChar_intercalate '\n' _ (by simp) ?_
    intro l hl
    rcases List.mem_cons.mp hl with rfl | hl'
    · exact newline_not_mem_headerLine query
    · obtain ⟨r, hrmem, rfl⟩ := List.mem_map.mp hl'
      obtain ⟨h1, h2, h3, h4⟩ := hcomp r hrmem
      exact newline_not_mem_resultLine h1 h2 h3 h4

theorem c9_format_results_shape_witness :
    (∀ r ∈ [(⟨⟨"handspeak".toList, "Hello".toList, "http://a".toList⟩, 1.00,
        exactReason⟩ : RankedResult)],
      '\n' ∉ r.entry.source ∧ '\n' ∉ r.entry.title ∧ '\n' ∉ r.entry.url ∧
        '\n' ∉ r.reason) ∧
    (([(⟨⟨"handspeak".toList, "Hello".toList, "http://a".toList⟩, 1.00,
          exactReason⟩ : RankedResult)] : List RankedResult) ≠ [] →
      splitOnChar '\n' (format_results "hi".toList
            [⟨⟨"handspeak".toList, "Hello".toList, "http://a".toList⟩, 1.00, exactReason⟩]
            true)
          = headerLine "hi".toList ::
              [⟨⟨"handspeak".toList, "Hello".toList, "http://a".toList⟩, 1.00,
                exactReason⟩].map (resultLine true) ∧
        ([(⟨⟨"handspeak".toList, "Hello".toList, "http://a".toList⟩, 1.00,
            exactReason⟩ : RankedResult)].map (resultLine true)).length = 1) :=
  ⟨by decide,
    (c9_format_results_shape "hi".toList
      [⟨⟨"handspeak".toList, "Hello".toList, "http://a".toList⟩, 1.00, exactReason⟩]
      true (by decide)).2⟩

end SignBot
